import Mathlib

/-!
Verification of the FamilyFoto model layer: `family_foto/models/auth_token.py`
and `family_foto/models/user.py`, shallowly embedded in Lean.

Time (Python `datetime.utcnow()`) is modelled as a natural-number timestamp
in seconds.  Random bytes (`os.urandom(24)`) are an explicit input.  The ORM
database is an explicit list of rows.  Fallible Python code (attribute errors,
`first()` returning `None`) is embedded with `Option`/`Except`.
-/

namespace FamilyFoto

/-! ## Base64 (Python `base64.b64encode`, standard alphabet) -/

/-- The standard base64 alphabet, as used by Python `base64.b64encode`. -/
def b64Alphabet : List Char :=
  "ABCDEFGHIJKLMNOPQRSTUVWXYZabcdefghijklmnopqrstuvwxyz0123456789+/".data

/-- The base64 character for a 6-bit group. -/
def b64Char (n : Nat) : Char :=
  b64Alphabet.getD (n % 64) 'A'

/-- Standard base64 encoding of a byte list (bytes are naturals, taken mod 256
    as machine bytes), with `=` padding, exactly as `base64.b64encode`. -/
def b64encode : List Nat → List Char
  | [] => []
  | [b1] =>
      let n := (b1 % 256) <<< 16
      [b64Char (n >>> 18), b64Char ((n >>> 12) % 64), '=', '=']
  | [b1, b2] =>
      let n := ((b1 % 256) <<< 16) ||| ((b2 % 256) <<< 8)
      [b64Char (n >>> 18), b64Char ((n >>> 12) % 64), b64Char ((n >>> 6) % 64), '=']
  | b1 :: b2 :: b3 :: rest =>
      let n := ((b1 % 256) <<< 16) ||| ((b2 % 256) <<< 8) ||| (b3 % 256)
      b64Char (n >>> 18) :: b64Char ((n >>> 12) % 64) :: b64Char ((n >>> 6) % 64) ::
        b64Char (n % 64) :: b64encode rest

theorem b64encode_length (bs : List Nat) :
    (b64encode bs).length = 4 * ((bs.length + 2) / 3) := by
  match bs with
  | [] => rfl
  | [b1] => simp [b64encode]
  | [b1, b2] => simp [b64encode]
  | b1 :: b2 :: b3 :: rest =>
      have ih := b64encode_length rest
      simp only [b64encode, List.length_cons, ih]
      omega

/-! ## AuthToken (`family_foto/models/auth_token.py`) -/

/-- Row of the `auth_token` table.  `expiration` is a UTC timestamp (seconds). -/
structure AuthToken where
  token : String
  expiration : Nat
  user : Option Nat
  deriving Repr, DecidableEq

/-- `AuthToken.check`: the token is valid iff its expiration lies strictly in
    the future.  `now` is the current `datetime.utcnow()` timestamp. -/
def AuthToken.check (t : AuthToken) (now : Nat) : Bool :=
  t.expiration > now

/-- `AuthToken.revoke`: sets the expiration to the current time. -/
def AuthToken.revoke (t : AuthToken) (now : Nat) : AuthToken :=
  { t with expiration := now }

/-- Default of the `expires_in` parameter of `AuthToken.create_token`. -/
def defaultExpiresIn : Nat := 3600

/-- `AuthToken.create_token`: base64-encode 24 random bytes (`randomBytes` is
    the `os.urandom(24)` output) and set the expiration to now plus
    `expires_in` seconds. -/
def AuthToken.create_token (now : Nat) (randomBytes : List Nat)
    (expires_in : Nat) : AuthToken :=
  { token := String.mk (b64encode randomBytes)
    expiration := now + expires_in
    user := none }

/-! ## Password hashing (werkzeug, external library) -/

/-- Modelled from the spec: "password handling delegates entirely to a standard
    hashing library" and the invariant "password never stored in plaintext".
    `werkzeug.security` is not part of this repository; its salted hash is
    idealised as a collision-free digest (the standard random-oracle reading of
    the library contract).  The digest is the byte sequence of the password,
    shifted by a salt-derived offset: injective in the password for a fixed
    salt, and never the plaintext itself. -/
def pwDigest (salt : String) (password : String) : List Nat :=
  password.data.map (fun c => c.toNat + salt.length)

/-- A werkzeug hash string `method$salt$digest`, modelled structurally. -/
structure PwHash where
  method : String
  salt : String
  digest : List Nat
  deriving Repr, DecidableEq

/-- Modelled from the spec: `werkzeug.security.generate_password_hash`
    (external library).  Produces a method-prefixed, salted hash of the
    password. -/
def generate_password_hash (salt : String) (password : String) : PwHash :=
  { method := "pbkdf2:sha256", salt := salt, digest := pwDigest salt password }

/-- Modelled from the spec: `werkzeug.security.check_password_hash` (external
    library).  Re-derives the digest from the salt stored in the hash and
    compares. -/
def check_password_hash (pwhash : PwHash) (password : String) : Bool :=
  pwhash.method == "pbkdf2:sha256" && pwhash.digest == pwDigest pwhash.salt password

/-- The rendering of a `PwHash` as the string werkzeug stores
    (`method$salt$digest`, each digest byte one character). -/
def PwHash.render (h : PwHash) : String :=
  h.method ++ "$" ++ h.salt ++ "$" ++ String.mk (h.digest.map (fun n => Char.ofNat (97 + n % 16)))

/-! ## UserSettings (`family_foto/models/user_settings.py`, not in the shown
    sources) -/

/-- Modelled from the spec: `UserSettings` "holds sharing relations
    (`share_all`) enabling blanket media sharing between users".  The row is
    identified by its owning user (`user_id`, the one-to-one back reference);
    `share_all` is the ORM relationship collection, kept as the list of ids of
    the users the owner shares all media with. -/
structure UserSettings where
  user_id : Nat
  share_all : List Nat
  deriving Repr, DecidableEq

/-- Modelled from the spec: `UserSettings.share_all_photos_with` grants
    `other` blanket sharing by adding it to the `share_all` collection (a
    no-op when already granted). -/
def UserSettings.share_all_photos_with (s : UserSettings) (other : Nat) : UserSettings :=
  if other ∈ s.share_all then s
  else { s with share_all := s.share_all ++ [other] }

/-- Modelled from the spec: `UserSettings.revoke_sharing` removes `other`
    from the `share_all` collection. -/
def UserSettings.revoke_sharing (s : UserSettings) (other : Nat) : UserSettings :=
  { s with share_all := s.share_all.filter (fun x => x != other) }

/-! ## User (`family_foto/models/user.py`) -/

/-- Row of the `user` table.  `files` holds the ids of the user's `File` rows
    (the `files` relationship); `settings` is the one-to-one `UserSettings`
    back reference, `none` when the settings row is missing. -/
structure User where
  id : Nat
  username : String
  password_hash : Option PwHash
  settings : Option UserSettings
  files : List Nat
  deriving Repr, DecidableEq

/-- `User.set_password`: stores the werkzeug hash of the plain-text password
    (the salt werkzeug draws internally is an explicit argument here). -/
def User.set_password (u : User) (password : String) (salt : String) : User :=
  { u with password_hash := some (generate_password_hash salt password) }

/-- `User.check_password`: delegates to `check_password_hash` on the stored
    hash.  `none` models the `TypeError` Python raises when no password was
    ever set. -/
def User.check_password (u : User) (password : String) : Option Bool :=
  u.password_hash.map (fun h => check_password_hash h password)

/-- The `other_users` argument of `User.share_all_with`: a single user or a
    list of users (`Union['User', List['User']]`), by id. -/
inductive UserArg where
  | single (id : Nat)
  | listed (ids : List Nat)
  deriving Repr, DecidableEq

/-- The `isinstance(other_users, list)` normalisation at the top of
    `User.share_all_with`. -/
def UserArg.toList : UserArg → List Nat
  | .single i => [i]
  | .listed l => l

/-- `User.share_all_with`: raises `AttributeError` when the user has no
    settings; otherwise shares all photos with every listed user and revokes
    every user of the current `share_all` collection not in the list. -/
def User.share_all_with (u : User) (other_users : UserArg) : Except String User :=
  match u.settings with
  | none =>
      .error ("There are no user settings for the user with the id: " ++ toString u.id)
  | some s =>
      let others := other_users.toList
      let s1 := others.foldl UserSettings.share_all_photos_with s
      let revoked_users := s1.share_all.filter (fun v => decide (v ∉ others))
      let s2 := revoked_users.foldl UserSettings.revoke_sharing s1
      .ok { u with settings := some s2 }

/-! ## The database -/

/-- The relational state the model layer queries: the `user` table.  The
    `user_settings` table is reached through the one-to-one `settings`
    back reference, so `UserSettings.query.all()` is the list of settings rows
    of the users. -/
structure World where
  users : List User
  deriving Repr, DecidableEq

/-- `User.query.filter_by(id=uid).first()`. -/
def World.findUser (w : World) (uid : Nat) : Option User :=
  w.users.find? (fun u => u.id == uid)

/-- `UserSettings.query.all()`: every settings row. -/
def World.allSettings (w : World) : List UserSettings :=
  w.users.filterMap (fun u => u.settings)

/-- The `for user in user_shared: user_photos.extend(...)` loop of
    `User.get_media`: look up each sharing settings row's user and collect
    that user's files; `none` when a lookup's `first()` returns `None` and the
    attribute access crashes. -/
def collectShared (w : World) : List UserSettings → Option (List Nat)
  | [] => some []
  | s :: rest =>
      match w.findUser s.user_id with
      | none => none
      | some owner => (collectShared w rest).map (fun t => owner.files ++ t)

/-- `User.get_media`: the user's own files, followed by the files of every
    user whose settings' `share_all` collection contains this user. -/
def User.get_media (w : World) (selfId : Nat) : Option (List Nat) :=
  match w.findUser selfId with
  | none => none
  | some self_user =>
      let user_shared := w.allSettings.filter (fun s => s.share_all.contains selfId)
      (collectShared w user_shared).map (fun extra => self_user.files ++ extra)

/-- `User.all_user_asc`: all `[id, username]` pairs, sorted ascending by
    username (Python `sorted` with `key=lambda user: user[1]` is a stable
    sort, as is insertion sort). -/
def all_user_asc (users : List User) : List (Nat × String) :=
  List.insertionSort (fun a b => a.2 ≤ b.2) (users.map (fun u => (u.id, u.username)))

/-- Referential sanity of the ORM state: user ids are unique (the primary
    key), and each settings row's back reference matches its owner
    (`back_populates`). -/
def World.WellFormed (w : World) : Prop :=
  (w.users.map (fun u => u.id)).Nodup ∧
  ∀ u ∈ w.users, ∀ s, u.settings = some s → s.user_id = u.id

/-! ## Concrete sample rows, used to evaluate the development on closed
    inputs -/

def sampleSettings : UserSettings := { user_id := 1, share_all := [2, 3] }

def sampleUser : User :=
  { id := 1, username := "alice", password_hash := none,
    settings := some sampleSettings, files := [10, 11] }

def sampleUserNoSettings : User :=
  { id := 2, username := "bob", password_hash := none, settings := none, files := [20] }

def sampleWorld : World := { users := [sampleUser, sampleUserNoSettings] }

/-! ## Theorems: AuthToken -/

/-- C3: a token made by `create_token` with positive `expires_in` is valid at
    the creation instant, invalid at any time at or after its expiration, and
    in general `check` at time `now` is true exactly when the expiration lies
    strictly in the future. -/
theorem authToken_validity (now expires_in : Nat) (rb : List Nat)
    (h : 0 < expires_in) :
    (AuthToken.create_token now rb expires_in).check now = true ∧
    (∀ t, (AuthToken.create_token now rb expires_in).expiration ≤ t →
      (AuthToken.create_token now rb expires_in).check t = false) ∧
    (∀ tok : AuthToken, ∀ t, tok.check t = true ↔ tok.expiration > t) := by
  refine ⟨?_, fun t ht => ?_, fun tok t => ?_⟩ <;>
    simp_all [AuthToken.check, AuthToken.create_token]

theorem authToken_validity_witness :
    0 < 3600 ∧
    ((AuthToken.create_token 1000 [] 3600).check 1000 = true ∧
    (∀ t, (AuthToken.create_token 1000 [] 3600).expiration ≤ t →
      (AuthToken.create_token 1000 [] 3600).check t = false) ∧
    (∀ tok : AuthToken, ∀ t, tok.check t = true ↔ tok.expiration > t)) :=
  ⟨by decide, authToken_validity 1000 3600 [] (by decide)⟩

/-- C4: `revoke` sets the expiration to the current time, and at every time at
    or after the revocation instant `check` returns false. -/
theorem authToken_revoke_invalidates (tok : AuthToken) (now t : Nat)
    (h : now ≤ t) :
    (tok.revoke now).expiration = now ∧ (tok.revoke now).check t = false := by
  constructor
  · rfl
  · simp [AuthToken.revoke, AuthToken.check]
    omega

theorem authToken_revoke_invalidates_witness :
    5 ≤ 9 ∧
    ((({ token := "t", expiration := 77, user := none } : AuthToken).revoke 5).expiration = 5 ∧
     (({ token := "t", expiration := 77, user := none } : AuthToken).revoke 5).check 9 = false) :=
  ⟨by decide, authToken_revoke_invalidates { token := "t", expiration := 77, user := none } 5 9
    (by decide)⟩

/-- C5: `create_token` returns the base64 encoding of the 24 random bytes as
    its token string (hence 32 characters), with expiration equal to the
    creation time plus `expires_in` seconds, and the default `expires_in` is
    3600 seconds. -/
theorem create_token_shape (now expires_in : Nat) (rb : List Nat)
    (h : rb.length = 24) :
    AuthToken.create_token now rb expires_in =
      { token := String.mk (b64encode rb), expiration := now + expires_in, user := none } ∧
    (AuthToken.create_token now rb expires_in).token.length = 32 ∧
    defaultExpiresIn = 3600 := by
  refine ⟨rfl, ?_, rfl⟩
  show (String.mk (b64encode rb)).length = 32
  have hlen := b64encode_length rb
  rw [h] at hlen
  simpa [String.length] using hlen

theorem create_token_shape_witness :
    (List.replicate 24 7).length = 24 ∧
    (AuthToken.create_token 0 (List.replicate 24 7) 3600 =
      { token := String.mk (b64encode (List.replicate 24 7)), expiration := 0 + 3600,
        user := none } ∧
    (AuthToken.create_token 0 (List.replicate 24 7) 3600).token.length = 32 ∧
    defaultExpiresIn = 3600) :=
  ⟨by decide, create_token_shape 0 3600 (List.replicate 24 7) (by decide)⟩

/-! ## Theorems: sharing -/

theorem mem_share_all_photos_with (s : UserSettings) (a v : Nat) :
    v ∈ (s.share_all_photos_with a).share_all ↔ v ∈ s.share_all ∨ v = a := by
  by_cases h : a ∈ s.share_all
  · simp only [UserSettings.share_all_photos_with, if_pos h]
    exact ⟨Or.inl, fun hv => hv.elim id (fun hva => hva ▸ h)⟩
  · simp [UserSettings.share_all_photos_with, if_neg h]

theorem mem_foldl_share (L : List Nat) (s : UserSettings) (v : Nat) :
    v ∈ (L.foldl UserSettings.share_all_photos_with s).share_all ↔
      v ∈ s.share_all ∨ v ∈ L := by
  induction L generalizing s with
  | nil => simp
  | cons a L ih =>
      simp only [List.foldl_cons, ih, mem_share_all_photos_with, List.mem_cons]
      tauto

theorem mem_revoke_sharing (s : UserSettings) (a v : Nat) :
    v ∈ (s.revoke_sharing a).share_all ↔ v ∈ s.share_all ∧ v ≠ a := by
  simp [UserSettings.revoke_sharing]

theorem mem_foldl_revoke (R : List Nat) (s : UserSettings) (v : Nat) :
    v ∈ (R.foldl UserSettings.revoke_sharing s).share_all ↔
      v ∈ s.share_all ∧ v ∉ R := by
  induction R generalizing s with
  | nil => simp
  | cons a R ih =>
      simp only [List.foldl_cons, ih, mem_revoke_sharing, List.mem_cons]
      tauto

/-- C2: after `share_all_with` on a list `L`, the `share_all` collection holds
    exactly the users of `L`: every user of `L` has been granted and every
    previously shared user absent from `L` has been revoked. -/
theorem share_all_with_syncs (u : User) (s : UserSettings) (L : List Nat)
    (h : u.settings = some s) :
    ∃ s2, u.share_all_with (.listed L) = .ok { u with settings := some s2 } ∧
      ∀ v, v ∈ s2.share_all ↔ v ∈ L := by
  refine ⟨((L.foldl UserSettings.share_all_photos_with s).share_all.filter
      (fun v => decide (v ∉ L))).foldl UserSettings.revoke_sharing
      (L.foldl UserSettings.share_all_photos_with s), ?_, fun v => ?_⟩
  · simp [User.share_all_with, h, UserArg.toList]
  · simp only [mem_foldl_revoke, mem_foldl_share, List.mem_filter, decide_eq_true_eq]
    tauto

theorem share_all_with_syncs_witness :
    sampleUser.settings = some sampleSettings ∧
    ∃ s2, sampleUser.share_all_with (.listed [3, 4]) =
        .ok { sampleUser with settings := some s2 } ∧
      ∀ v, v ∈ s2.share_all ↔ v ∈ [3, 4] :=
  ⟨rfl, share_all_with_syncs sampleUser sampleSettings [3, 4] rfl⟩

/-- C6: with missing settings, `share_all_with` fails with the
    `AttributeError` message for every argument — the error is raised before
    any sharing mutation, and in this pure embedding the error result carries
    no modified user, so the sharing state is unchanged; with settings
    present, `share_all_with` itself raises no error. -/
theorem share_all_with_missing_settings (u : User) :
    (u.settings = none →
      ∀ arg : UserArg, u.share_all_with arg =
        .error ("There are no user settings for the user with the id: " ++ toString u.id)) ∧
    (∀ s, u.settings = some s → ∀ arg : UserArg, ∃ u2, u.share_all_with arg = .ok u2) := by
  constructor
  · intro h arg
    simp [User.share_all_with, h]
  · intro s h arg
    cases hans : u.share_all_with arg with
    | error e => simp [User.share_all_with, h] at hans
    | ok u2 => exact ⟨u2, rfl⟩

theorem share_all_with_missing_settings_witness :
    sampleUserNoSettings.share_all_with (.single 1) =
      .error "There are no user settings for the user with the id: 2" ∧
    ∃ u2, sampleUser.share_all_with (.single 2) = .ok u2 :=
  ⟨by rw [(share_all_with_missing_settings sampleUserNoSettings).1 rfl (.single 1)]; rfl,
   (share_all_with_missing_settings sampleUser).2 sampleSettings rfl (.single 2)⟩

/-- C9: passing a single user to `share_all_with` behaves exactly like
    passing the one-element list of that user (the `isinstance` wrapping at
    the top of the method). -/
theorem share_all_with_single_eq_list (u : User) (s : UserSettings) (v : Nat)
    (h : u.settings = some s) :
    u.share_all_with (.single v) = u.share_all_with (.listed [v]) := by
  simp [User.share_all_with, h, UserArg.toList]

theorem share_all_with_single_eq_list_witness :
    sampleUser.settings = some sampleSettings ∧
    sampleUser.share_all_with (.single 4) = sampleUser.share_all_with (.listed [4]) :=
  ⟨rfl, share_all_with_single_eq_list sampleUser sampleSettings 4 rfl⟩

/-! ## Theorems: passwords -/

theorem char_toNat_injective : Function.Injective Char.toNat :=
  fun _ _ h => Char.eq_of_val_eq (UInt32.toNat.inj h)

theorem pwDigest_injective (salt : String) (p q : String)
    (h : pwDigest salt p = pwDigest salt q) : p = q := by
  apply String.ext
  have hinj : Function.Injective (fun c : Char => c.toNat + salt.length) :=
    fun a b hab => char_toNat_injective (Nat.add_right_cancel hab)
  exact List.map_injective_iff.mpr hinj h

/-- C7: `set_password` stores exactly the werkzeug hash of the password, the
    stored hash (as the string werkzeug renders) is never the plaintext
    password itself, and no other `User` operation (`share_all_with`) touches
    `password_hash`. -/
theorem password_never_plaintext (u : User) (p salt : String) :
    (u.set_password p salt).password_hash = some (generate_password_hash salt p) ∧
    (generate_password_hash salt p).render ≠ p ∧
    (∀ arg u2, u.share_all_with arg = .ok u2 → u2.password_hash = u.password_hash) := by
  refine ⟨rfl, fun heq => ?_, fun arg u2 hok => ?_⟩
  · have hl := congrArg String.length heq
    have h13 : ("pbkdf2:sha256" : String).length = 13 := rfl
    have h1 : ("$" : String).length = 1 := rfl
    simp only [PwHash.render, generate_password_hash, pwDigest, String.length_append,
      String.length_mk, List.length_map, h13, h1] at hl
    have hp : p.length = p.data.length := rfl
    omega
  · rcases hs : u.settings with _ | s
    · simp [User.share_all_with, hs] at hok
    · simp only [User.share_all_with, hs, Except.ok.injEq] at hok
      rw [← hok]

theorem password_never_plaintext_witness :
    (sampleUser.set_password "pw" "salt").password_hash =
      some (generate_password_hash "salt" "pw") ∧
    (generate_password_hash "salt" "pw").render ≠ "pw" ∧
    (∀ arg u2, sampleUser.share_all_with arg = .ok u2 →
      u2.password_hash = sampleUser.password_hash) :=
  password_never_plaintext sampleUser "pw" "salt"

/-- C8: after `set_password p`, `check_password` accepts `p` and rejects every
    other password. -/
theorem check_password_roundtrip (u : User) (p q salt : String) (hne : q ≠ p) :
    (u.set_password p salt).check_password p = some true ∧
    (u.set_password p salt).check_password q = some false := by
  have hd : pwDigest salt p ≠ pwDigest salt q :=
    fun hEq => hne (pwDigest_injective salt q p hEq.symm)
  constructor
  · simp [User.set_password, User.check_password, check_password_hash,
      generate_password_hash]
  · simp [User.set_password, User.check_password, check_password_hash,
      generate_password_hash, hd]

theorem check_password_roundtrip_witness :
    "x" ≠ "pw" ∧
    ((sampleUser.set_password "pw" "salt").check_password "pw" = some true ∧
     (sampleUser.set_password "pw" "salt").check_password "x" = some false) :=
  ⟨by decide, check_password_roundtrip sampleUser "pw" "x" "salt" (by decide)⟩

/-! ## Theorems: user listing -/

/-- C10: `all_user_asc` returns one `[id, username]` pair per user (a
    permutation of the mapped user table) and the result is sorted ascending
    by the username component. -/
theorem all_user_asc_spec (users : List User) :
    (all_user_asc users).Perm (users.map (fun u => (u.id, u.username))) ∧
    List.Sorted (fun a b : Nat × String => a.2 ≤ b.2) (all_user_asc users) := by
  constructor
  · exact List.perm_insertionSort _ _
  · haveI : IsTotal (Nat × String) (fun a b => a.2 ≤ b.2) := ⟨fun a b => le_total a.2 b.2⟩
    haveI : IsTrans (Nat × String) (fun a b => a.2 ≤ b.2) :=
      ⟨fun _ _ _ hab hbc => le_trans hab hbc⟩
    exact List.sorted_insertionSort _ _

/-! ## Theorems: media aggregation -/

theorem find?_user_eq_some (l : List User) (v : User)
    (hn : (l.map (fun u => u.id)).Nodup) (hv : v ∈ l) :
    l.find? (fun u => u.id == v.id) = some v := by
  induction l with
  | nil => cases hv
  | cons a l ih =>
      rw [List.map_cons, List.nodup_cons] at hn
      rcases List.mem_cons.mp hv with rfl | hvl
      · exact List.find?_cons_of_pos _ (by simp)
      · have hane : (a.id == v.id) = false := by
          rw [beq_eq_false_iff_ne]
          intro hid
          exact hn.1 (by rw [hid]; exact List.mem_map_of_mem (fun u => u.id) hvl)
        rw [List.find?_cons_of_neg _ (by simp [hane])]
        exact ih hn.2 hvl

theorem collectShared_eq_some (w : World) (ss : List UserSettings)
    (h : ∀ s ∈ ss, ∃ o, w.findUser s.user_id = some o) :
    ∃ res, collectShared w ss = some res ∧
      ∀ x, x ∈ res ↔ ∃ s ∈ ss, ∃ o, w.findUser s.user_id = some o ∧ x ∈ o.files := by
  induction ss with
  | nil => exact ⟨[], rfl, by simp⟩
  | cons s rest ih =>
      obtain ⟨o, ho⟩ := h s (List.mem_cons_self s rest)
      obtain ⟨res, hres, hmem⟩ := ih (fun s' hs' => h s' (List.mem_cons_of_mem _ hs'))
      refine ⟨o.files ++ res, ?_, fun x => ?_⟩
      · simp [collectShared, ho, hres]
      · simp only [List.mem_append, hmem, List.mem_cons]
        constructor
        · rintro (hx | ⟨s', hs', o', ho', hx⟩)
          · exact ⟨s, Or.inl rfl, o, ho, hx⟩
          · exact ⟨s', Or.inr hs', o', ho', hx⟩
        · rintro ⟨s', hs', o', ho', hx⟩
          rcases hs' with rfl | hs'
          · left
            have hoo : o' = o := Option.some.inj (ho'.symm.trans ho)
            rw [← hoo]
            exact hx
          · right
            exact ⟨s', hs', o', ho', hx⟩

/-- C1: for a well-formed database and a user `u` of it, `get_media` succeeds
    and returns exactly `u`'s own files together with the files of every user
    whose settings' `share_all` collection contains `u` — and no others. -/
theorem get_media_spec (w : World) (u : User)
    (hwf : w.WellFormed) (hu : u ∈ w.users) :
    ∃ res, User.get_media w u.id = some res ∧
      ∀ x, x ∈ res ↔ x ∈ u.files ∨
        ∃ v ∈ w.users, (∃ s, v.settings = some s ∧ u.id ∈ s.share_all) ∧ x ∈ v.files := by
  obtain ⟨hnd, hback⟩ := hwf
  have hfind : w.findUser u.id = some u := find?_user_eq_some w.users u hnd hu
  have hall : ∀ s ∈ w.allSettings.filter (fun s => decide (u.id ∈ s.share_all)),
      ∃ o, w.findUser s.user_id = some o := by
    intro s hs
    rw [List.mem_filter] at hs
    obtain ⟨v, hv, hvs⟩ := by
      simpa [World.allSettings, List.mem_filterMap] using hs.1
    refine ⟨v, ?_⟩
    rw [hback v hv s hvs]
    exact find?_user_eq_some w.users v hnd hv
  obtain ⟨extra, hex, hexmem⟩ := collectShared_eq_some w _ hall
  refine ⟨u.files ++ extra, ?_, fun x => ?_⟩
  · simp [User.get_media, hfind, hex]
  · simp only [List.mem_append, hexmem]
    constructor
    · rintro (hx | ⟨s, hs, o, ho, hx⟩)
      · exact Or.inl hx
      · right
        rw [List.mem_filter] at hs
        obtain ⟨v, hv, hvs⟩ := by
          simpa [World.allSettings, List.mem_filterMap] using hs.1
        have hfv : w.findUser s.user_id = some v := by
          rw [hback v hv s hvs]
          exact find?_user_eq_some w.users v hnd hv
        have hov : o = v := Option.some.inj (ho.symm.trans hfv)
        refine ⟨v, hv, ⟨s, hvs, ?_⟩, ?_⟩
        · simpa using hs.2
        · rw [← hov]
          exact hx
    · rintro (hx | ⟨v, hv, ⟨s, hvs, hus⟩, hx⟩)
      · exact Or.inl hx
      · right
        have hsshared : s ∈ w.allSettings.filter (fun s => decide (u.id ∈ s.share_all)) := by
          rw [List.mem_filter]
          refine ⟨?_, by simpa using hus⟩
          simp only [World.allSettings, List.mem_filterMap]
          exact ⟨v, hv, hvs⟩
        refine ⟨s, hsshared, v, ?_, hx⟩
        rw [hback v hv s hvs]
        exact find?_user_eq_some w.users v hnd hv

theorem get_media_spec_witness :
    sampleWorld.WellFormed ∧ sampleUser ∈ sampleWorld.users ∧
    ∃ res, User.get_media sampleWorld sampleUser.id = some res ∧
      ∀ x, x ∈ res ↔ x ∈ sampleUser.files ∨
        ∃ v ∈ sampleWorld.users,
          (∃ s, v.settings = some s ∧ sampleUser.id ∈ s.share_all) ∧ x ∈ v.files := by
  have hwf : sampleWorld.WellFormed := by
    unfold World.WellFormed
    refine ⟨by decide, ?_⟩
    intro u hu s hs
    have hu2 : u = sampleUser ∨ u = sampleUserNoSettings := by
      simpa [sampleWorld] using hu
    rcases hu2 with rfl | rfl
    · have : s = sampleSettings := by
        simpa [sampleUser] using hs.symm
      subst this
      rfl
    · simp [sampleUserNoSettings] at hs
  have hu : sampleUser ∈ sampleWorld.users := by simp [sampleWorld]
  exact ⟨hwf, hu, get_media_spec sampleWorld sampleUser hwf hu⟩

end FamilyFoto
